import Mathlib

/-!
Shallow embedding of the clause-risk detector `perform_enhanced_pattern_analysis`
from `app.py` of the legalcopilot repository, together with theorems settling the
specification claims about it.

The detector scans contract text with Python `re.finditer` against a static table
of patterns, under `re.IGNORECASE | re.DOTALL`.  Every pattern in the table uses
only three regex constructs: literal characters, `.` (any character, since DOTALL
is set) and `.*` (greedy).  The embedding therefore models exactly this fragment:
a pattern is a list of tokens, matched with Python's backtracking semantics
(leftmost match start; each greedy `.*` consumes as much as possible subject to
the rest of the pattern matching; `finditer` resumes scanning at the end of the
previous match, advancing one character after an empty match).

Text is modelled as `List Char`; Python string slicing `text[a:b]` (with the
clipping behaviour used by the source) is `pySlice`, and `str.strip()` is
`pstrip`.  Confidence values are embedded as exact rationals.
-/

/-- A token of the regex fragment used by the pattern table: a literal
character, `.` under DOTALL (any single character), or greedy `.*`. -/
inductive Tok
  | lit (c : Char)
  | dot
  | dotStar
deriving DecidableEq

/-- Parse one of the table's pattern strings into tokens.  The table's patterns
use no regex constructs other than literals, `.` and `.*`. -/
def parseTokens : List Char → List Tok
  | [] => []
  | '.' :: '*' :: rest => Tok.dotStar :: parseTokens rest
  | '.' :: rest => Tok.dot :: parseTokens rest
  | c :: rest => Tok.lit c :: parseTokens rest

/-- Return the first `some` value of `f` along a list of candidate suffixes
(backtracking order). -/
def firstSome (f : List Char → Option (List Char)) : List (List Char) → Option (List Char)
  | [] => none
  | s :: rest =>
    match f s with
    | some r => some r
    | none => firstSome f rest

/-- Match a token list against the beginning of a suffix of the text, returning
the remaining suffix after the match (Python backtracking semantics).  A literal
is compared case-insensitively (`re.IGNORECASE`: the table's pattern literals
are lowercase, so the text character is lowercased before comparison); `.`
consumes any one character (`re.DOTALL`); greedy `.*` tries the longest
consumption first, i.e. the shortest remaining suffix first. -/
def matchEnd : List Tok → List Char → Option (List Char)
  | [], s => some s
  | Tok.lit _ :: _, [] => none
  | Tok.lit c :: ps, a :: s => if a.toLower = c then matchEnd ps s else none
  | Tok.dot :: _, [] => none
  | Tok.dot :: ps, _ :: s => matchEnd ps s
  | Tok.dotStar :: ps, s => firstSome (matchEnd ps) s.tails.reverse

/-- Scanning loop of `re.finditer`: `i` is the absolute offset of the current
suffix `s` in the text; on a match consuming at least one character the scan
resumes at the match end, on an empty match or a failure it advances one
character.  `fuel` bounds the recursion; `text.length + 1` always suffices. -/
def goFind (p : List Tok) : Nat → Nat → List Char → List (Nat × Nat)
  | 0, _, _ => []
  | Nat.succ fuel, i, s =>
    match matchEnd p s with
    | some r =>
      if r.length < s.length then
        (i, i + (s.length - r.length)) :: goFind p fuel (i + (s.length - r.length)) r
      else
        (i, i) ::
          (match s with
           | [] => []
           | _ :: s2 => goFind p fuel (i + 1) s2)
    | none =>
      match s with
      | [] => []
      | _ :: s2 => goFind p fuel (i + 1) s2

/-- All matches of `re.finditer(pattern, text, re.IGNORECASE | re.DOTALL)`, as
pairs `(start, end)` of absolute offsets, in the order Python yields them. -/
def findIter (p : List Tok) (text : List Char) : List (Nat × Nat) :=
  goFind p (text.length + 1) 0 text

/-- The whitespace characters removed by Python `str.strip()` (ASCII range). -/
def isPySpace (c : Char) : Bool :=
  c == ' ' || c == '\t' || c == '\n' || c == '\r' || c == '\x0b' || c == '\x0c'

/-- Python `str.strip()` on a character list. -/
def pstrip (l : List Char) : List Char :=
  ((l.dropWhile isPySpace).reverse.dropWhile isPySpace).reverse

/-- Python slice `l[a:b]` for `0 ≤ a ≤ b` clipped to the length of `l`
(the only form the source uses). -/
def pySlice (l : List Char) (a b : Nat) : List Char :=
  (l.drop a).take (b - a)

/-- One entry of the static pattern table: a regex source string with its
hand-authored confidence and risk level. -/
structure Rule where
  pattern : String
  confidence : ℚ
  risk : String
deriving DecidableEq

/-- The static `patterns` table of `perform_enhanced_pattern_analysis`,
verbatim from the source, in source (insertion) order. -/
def patternTable : List (String × List Rule) :=
  [("governance",
    [⟨"shareholder.*vote.*accordance.*with.*instructions.*provided.*by.*president", 0.95, "high"⟩,
     ⟨"vote.*shares.*accordance.*president.*instructions", 0.9, "high"⟩,
     ⟨"governance.*compromise.*president.*instructions", 0.85, "high"⟩,
     ⟨"holder.*vote.*shares.*accordance.*instructions.*president", 0.8, "high"⟩]),
   ("drag_along",
    [⟨"drag.along.*right.*ninety.five.*per.*cent", 0.95, "high"⟩,
     ⟨"95%.*holders.*shares.*offeror.*require.*sell", 0.9, "high"⟩,
     ⟨"offeror.*may.*require.*holders.*sell.*shares", 0.85, "high"⟩,
     ⟨"forced.*sale.*shares.*majority.*shareholders", 0.8, "high"⟩]),
   ("tag_along",
    [⟨"tag.along.*right.*transferor.*shareholder", 0.95, "low"⟩,
     ⟨"holder.*sell.*shares.*same.*price.*terms", 0.9, "low"⟩,
     ⟨"shareholder.*transfer.*shares.*holder.*right.*sell", 0.85, "low"⟩,
     ⟨"protection.*minority.*shareholders.*sales", 0.8, "low"⟩]),
   ("priority_allocation",
    [⟨"priority.*allocation.*sale.*price.*waterfall", 0.95, "medium"⟩,
     ⟨"liquidation.*preference.*distribution.*proceeds", 0.9, "medium"⟩,
     ⟨"sale.*proceeds.*allocated.*priority.*order", 0.85, "medium"⟩,
     ⟨"distribution.*waterfall.*priority.*shareholders", 0.8, "medium"⟩]),
   ("non_compete",
    [⟨"non.compete.*restrictions.*remain.*applicable.*avoidance.*doubts", 0.95, "medium"⟩,
     ⟨"non.solicit.*provisions.*survive.*completion", 0.9, "medium"⟩,
     ⟨"restrictions.*continue.*apply.*after.*sale", 0.85, "medium"⟩,
     ⟨"competition.*restrictions.*remain.*effect", 0.8, "medium"⟩])]

/-- The rules the source iterates for a requested clause type:
`patterns[clause_type]` when `clause_type in patterns`, nothing otherwise. -/
def rulesFor (clause_type : String) : List Rule :=
  (patternTable.lookup clause_type).getD []

/-- One detected clause, with the exact fields the source emits. -/
structure Clause where
  text : List Char
  context : List Char
  type : String
  confidence : ℚ
  risk_level : String
  position : Nat
deriving DecidableEq

/-- Build the clause record the source appends for one regex match with span
`se`, from the source's loop body: `text` is `match.group()`, `context` is
`text[max(0, start - 50) : min(len(text), end + 50)].strip()` (`se.1 - 50` is
truncated natural subtraction, which equals `max(0, start - 50)`), `position`
is `match.start()`. -/
def mkClause (text : List Char) (clause_type : String) (confidence : ℚ) (risk : String)
    (se : Nat × Nat) : Clause :=
  { text := pySlice text se.1 se.2
    context := pstrip (pySlice text (se.1 - 50) (min text.length (se.2 + 50)))
    type := clause_type
    confidence := confidence
    risk_level := risk
    position := se.1 }

/-- The full accumulated `detected_clauses` list before truncation: requested
clause types in order, each type's rules in table order, each rule's matches in
`finditer` order. -/
def allDetected (text : List Char) (clause_types : List String) : List Clause :=
  clause_types.flatMap fun ct =>
    (rulesFor ct).flatMap fun r =>
      (findIter (parseTokens r.pattern.data) text).map (mkClause text ct r.confidence r.risk)

/-- Whether a token list contains at least one literal token.  Every pattern of
the static table does, so no table pattern can match the empty string. -/
def hasLit (p : List Tok) : Bool :=
  p.any fun t =>
    match t with
    | Tok.lit _ => true
    | _ => false

/-- Declarative matching relation: `MatchesPre p s` holds when the pattern `p`
matches some prefix of `s` (with case-insensitive literals, `.` consuming any
one character, and `.*` consuming an arbitrary prefix). -/
inductive MatchesPre : List Tok → List Char → Prop
  | nil (s : List Char) : MatchesPre [] s
  | lit {c a : Char} {ps : List Tok} {s : List Char} :
      a.toLower = c → MatchesPre ps s → MatchesPre (Tok.lit c :: ps) (a :: s)
  | dot {a : Char} {ps : List Tok} {s : List Char} :
      MatchesPre ps s → MatchesPre (Tok.dot :: ps) (a :: s)
  | dotStar {ps : List Tok} {s s2 : List Char} :
      s2 <:+ s → MatchesPre ps s2 → MatchesPre (Tok.dotStar :: ps) s

/-- The concrete sentence of the specification's governance scenario. -/
def governanceSentence : List Char :=
  "The shareholder shall vote shares in accordance with instructions provided by the president".data

/-- The suffix of `governanceSentence` at which the first governance pattern
matches (offset 4, after the word "The "). -/
def gsTail : List Char :=
  "shareholder shall vote shares in accordance with instructions provided by the president".data

/-- The first clause the detector emits on `governanceSentence` with the single
requested category `governance` (used as a concrete evaluation point). -/
def witClause : Clause :=
  { text := gsTail
    context := governanceSentence
    type := "governance"
    confidence := 0.95
    risk_level := "high"
    position := 4 }

/-- The second clause the detector emits on `governanceSentence` with the
single requested category `governance` (from the fourth governance rule, whose
pattern matches starting inside the word "shareholder"). -/
def witClause2 : Clause :=
  { text := "holder shall vote shares in accordance with instructions provided by the president".data
    context := governanceSentence
    type := "governance"
    confidence := 0.8
    risk_level := "high"
    position := 9 }

/-- The dictionary returned by `perform_enhanced_pattern_analysis`. -/
structure AnalysisResult where
  detected_clauses : List Clause
  analysis_method : String
  success : Bool
  total_found : Nat
deriving DecidableEq

/-- The detector itself: accumulate all matches, truncate the returned list to
15 entries, and report the pre-truncation count as `total_found`. -/
def perform_enhanced_pattern_analysis (text : List Char) (clause_types : List String) :
    AnalysisResult :=
  let detected_clauses := allDetected text clause_types
  { detected_clauses := detected_clauses.take 15
    analysis_method := "enhanced_pattern_matching"
    success := true
    total_found := detected_clauses.length }

/-! ### Basic lemmas about the matcher -/

/-- If the backtracking search succeeds, some candidate suffix succeeds. -/
theorem firstSome_eq_some {f : List Char → Option (List Char)} :
    ∀ {l : List (List Char)} {r : List Char},
      firstSome f l = some r → ∃ j ∈ l, f j = some r := by
  intro l
  induction l with
  | nil => intro r h; simp [firstSome] at h
  | cons s rest ih =>
    intro r h
    rw [firstSome] at h
    cases hf : f s with
    | some r2 =>
      rw [hf] at h
      exact ⟨s, List.mem_cons_self s rest, by simpa [hf] using h⟩
    | none =>
      rw [hf] at h
      obtain ⟨j, hj, hfj⟩ := ih h
      exact ⟨j, List.mem_cons_of_mem s hj, hfj⟩

/-- If some candidate suffix succeeds, the backtracking search succeeds. -/
theorem firstSome_isSome {f : List Char → Option (List Char)} :
    ∀ {l : List (List Char)}, (∃ j ∈ l, (f j).isSome) → (firstSome f l).isSome := by
  intro l
  induction l with
  | nil => rintro ⟨j, hj, _⟩; exact absurd hj (List.not_mem_nil j)
  | cons s rest ih =>
    rintro ⟨j, hj, hfj⟩
    rw [firstSome]
    cases hf : f s with
    | some r2 => simp
    | none =>
      rcases List.mem_cons.mp hj with rfl | hj2
      · rw [hf] at hfj; simp at hfj
      · exact ih ⟨j, hj2, hfj⟩

/-- A successful match returns a suffix of its input. -/
theorem matchEnd_suffix : ∀ (p : List Tok) (s r : List Char),
    matchEnd p s = some r → r <:+ s := by
  intro p
  induction p with
  | nil =>
    intro s r h
    simp only [matchEnd, Option.some.injEq] at h
    exact h ▸ List.suffix_refl s
  | cons t ps ih =>
    intro s r h
    cases t with
    | lit c =>
      cases s with
      | nil => simp [matchEnd] at h
      | cons a s2 =>
        simp only [matchEnd] at h
        split at h
        · exact (ih s2 r h).trans (List.suffix_cons a s2)
        · simp at h
    | dot =>
      cases s with
      | nil => simp [matchEnd] at h
      | cons a s2 =>
        simp only [matchEnd] at h
        exact (ih s2 r h).trans (List.suffix_cons a s2)
    | dotStar =>
      simp only [matchEnd] at h
      obtain ⟨j, hj, hfj⟩ := firstSome_eq_some h
      have hjs : j <:+ s := (List.mem_tails j s).mp (List.mem_reverse.mp hj)
      exact (ih j r hfj).trans hjs

/-- A pattern containing a literal consumes at least one character. -/
theorem matchEnd_length_lt : ∀ (p : List Tok) (s r : List Char),
    hasLit p = true → matchEnd p s = some r → r.length < s.length := by
  intro p
  induction p with
  | nil => intro s r hl _; simp [hasLit] at hl
  | cons t ps ih =>
    intro s r hl h
    cases t with
    | lit c =>
      cases s with
      | nil => simp [matchEnd] at h
      | cons a s2 =>
        simp only [matchEnd] at h
        split at h
        · have := (matchEnd_suffix ps s2 r h).length_le
          simp only [List.length_cons]
          omega
        · simp at h
    | dot =>
      cases s with
      | nil => simp [matchEnd] at h
      | cons a s2 =>
        simp only [matchEnd] at h
        have hl2 : hasLit ps = true := by simpa [hasLit] using hl
        have := ih s2 r hl2 h
        simp only [List.length_cons]
        omega
    | dotStar =>
      simp only [matchEnd] at h
      obtain ⟨j, hj, hfj⟩ := firstSome_eq_some h
      have hjs : j <:+ s := (List.mem_tails j s).mp (List.mem_reverse.mp hj)
      have hl2 : hasLit ps = true := by simpa [hasLit] using hl
      have := ih j r hl2 hfj
      have := hjs.length_le
      omega


/-- Unfolding equation for one step of the scanning loop. -/
theorem goFind_succ (p : List Tok) (fuel i : Nat) (s : List Char) :
    goFind p (fuel + 1) i s =
      match matchEnd p s with
      | some r =>
        if r.length < s.length then
          (i, i + (s.length - r.length)) :: goFind p fuel (i + (s.length - r.length)) r
        else
          (i, i) ::
            (match s with
             | [] => []
             | _ :: s2 => goFind p fuel (i + 1) s2)
      | none =>
        match s with
        | [] => []
        | _ :: s2 => goFind p fuel (i + 1) s2 := rfl

/-- Every span emitted by the scanning loop lies between the current offset and
the end of the text. -/
theorem goFind_bounds {p : List Tok} : ∀ (fuel i : Nat) (s : List Char) (a b : Nat),
    (a, b) ∈ goFind p fuel i s → i ≤ a ∧ a ≤ b ∧ b ≤ i + s.length := by
  intro fuel
  induction fuel with
  | zero => intro i s a b h; simp [goFind] at h
  | succ fuel ih =>
    intro i s a b h
    rw [goFind_succ] at h
    cases hm : matchEnd p s with
    | some r =>
      simp only [hm] at h
      have hrs : r.length ≤ s.length := (matchEnd_suffix p s r hm).length_le
      by_cases hlt : r.length < s.length
      · rw [if_pos hlt] at h
        rcases List.mem_cons.mp h with heq | hmem
        · have h1 : a = i := congrArg Prod.fst heq
          have h2 : b = i + (s.length - r.length) := congrArg Prod.snd heq
          omega
        · have := ih (i + (s.length - r.length)) r a b hmem
          omega
      · rw [if_neg hlt] at h
        rcases List.mem_cons.mp h with heq | hmem
        · have h1 : a = i := congrArg Prod.fst heq
          have h2 : b = i := congrArg Prod.snd heq
          omega
        · cases s with
          | nil => simp at hmem
          | cons x s2 =>
            have := ih (i + 1) s2 a b hmem
            simp only [List.length_cons]
            omega
    | none =>
      simp only [hm] at h
      cases s with
      | nil => simp at h
      | cons x s2 =>
        have := ih (i + 1) s2 a b h
        simp only [List.length_cons]
        omega

/-- When the pattern contains a literal, every emitted match starts strictly
before the end of the text. -/
theorem goFind_start_lt {p : List Tok} (hl : hasLit p = true) :
    ∀ (fuel i : Nat) (s : List Char) (a b : Nat),
      (a, b) ∈ goFind p fuel i s → a < i + s.length := by
  intro fuel
  induction fuel with
  | zero => intro i s a b h; simp [goFind] at h
  | succ fuel ih =>
    intro i s a b h
    rw [goFind_succ] at h
    cases hm : matchEnd p s with
    | some r =>
      simp only [hm] at h
      have hlt : r.length < s.length := matchEnd_length_lt p s r hl hm
      rw [if_pos hlt] at h
      rcases List.mem_cons.mp h with heq | hmem
      · have h1 : a = i := congrArg Prod.fst heq
        omega
      · have := ih (i + (s.length - r.length)) r a b hmem
        omega
    | none =>
      simp only [hm] at h
      cases s with
      | nil => simp at h
      | cons x s2 =>
        have := ih (i + 1) s2 a b h
        simp only [List.length_cons]
        omega

/-- The spans emitted by the scanning loop have strictly increasing starts. -/
theorem goFind_pairwise {p : List Tok} :
    ∀ (fuel i : Nat) (s : List Char),
      List.Pairwise (fun x y => x.1 < y.1) (goFind p fuel i s) := by
  intro fuel
  induction fuel with
  | zero => intro i s; simp [goFind]
  | succ fuel ih =>
    intro i s
    rw [goFind_succ]
    cases hm : matchEnd p s with
    | some r =>
      simp only
      have hrs : r.length ≤ s.length := (matchEnd_suffix p s r hm).length_le
      by_cases hlt : r.length < s.length
      · rw [if_pos hlt]
        refine List.Pairwise.cons ?_ (ih _ _)
        rintro ⟨a, b⟩ hmem
        have := (goFind_bounds fuel (i + (s.length - r.length)) r a b hmem).1
        simp only
        omega
      · rw [if_neg hlt]
        cases s with
        | nil => simp
        | cons x s2 =>
          refine List.Pairwise.cons ?_ (ih _ _)
          rintro ⟨a, b⟩ hmem
          have := (goFind_bounds fuel (i + 1) s2 a b hmem).1
          simp only
          omega
    | none =>
      simp only
      cases s with
      | nil => simp
      | cons x s2 => exact ih (i + 1) s2

/-- The executable matcher succeeds whenever the declarative relation holds. -/
theorem matchEnd_isSome_of_matchesPre {p : List Tok} {s : List Char}
    (h : MatchesPre p s) : (matchEnd p s).isSome := by
  induction h with
  | nil s => simp [matchEnd]
  | lit hc _ ih => simp only [matchEnd, if_pos hc]; exact ih
  | dot _ ih => simpa [matchEnd] using ih
  | dotStar hs hd ih =>
    rename_i ps s s2
    simp only [matchEnd]
    exact firstSome_isSome ⟨s2, List.mem_reverse.mpr ((List.mem_tails s2 s).mpr hs), ih⟩

/-- The declarative relation holds whenever the executable matcher succeeds. -/
theorem matchesPre_of_matchEnd : ∀ (p : List Tok) (s : List Char),
    (matchEnd p s).isSome → MatchesPre p s := by
  intro p
  induction p with
  | nil => intro s _; exact MatchesPre.nil s
  | cons t ps ih =>
    intro s h
    cases t with
    | lit c =>
      cases s with
      | nil => simp [matchEnd] at h
      | cons a s2 =>
        simp only [matchEnd] at h
        by_cases hc : a.toLower = c
        · exact MatchesPre.lit hc (ih s2 (by rwa [if_pos hc] at h))
        · rw [if_neg hc] at h; simp at h
    | dot =>
      cases s with
      | nil => simp [matchEnd] at h
      | cons a s2 => exact MatchesPre.dot (ih s2 (by simpa [matchEnd] using h))
    | dotStar =>
      simp only [matchEnd] at h
      obtain ⟨r, hr⟩ := Option.isSome_iff_exists.mp h
      obtain ⟨j, hj, hfj⟩ := firstSome_eq_some hr
      have hjs : j <:+ s := (List.mem_tails j s).mp (List.mem_reverse.mp hj)
      exact MatchesPre.dotStar hjs (ih j (by simp [hfj]))

/-- Matching a prefix is preserved by appending characters on the right. -/
theorem matchesPre_append {p : List Tok} {u : List Char} (h : MatchesPre p u)
    (v : List Char) : MatchesPre p (u ++ v) := by
  induction h with
  | nil s => exact MatchesPre.nil (s ++ v)
  | lit hc _ ih => exact MatchesPre.lit hc ih
  | dot _ ih => exact MatchesPre.dot ih
  | dotStar hs _ ih =>
    refine MatchesPre.dotStar ?_ ih
    obtain ⟨w, hw⟩ := hs
    exact ⟨w, by rw [← hw, List.append_assoc]⟩

/-- If the pattern matches a prefix of some suffix of the text, the scanning
loop finds at least one match (given enough fuel). -/
theorem goFind_ne_nil {p : List Tok} : ∀ (fuel i : Nat) (s : List Char),
    s.length + 1 ≤ fuel → (∃ t, t <:+ s ∧ MatchesPre p t) →
    goFind p fuel i s ≠ [] := by
  intro fuel
  induction fuel with
  | zero => intro i s hf _; omega
  | succ fuel ih =>
    intro i s hf ⟨t, hts, hm⟩
    rw [goFind_succ]
    cases he : matchEnd p s with
    | some r =>
      simp only
      by_cases hlt : r.length < s.length
      · rw [if_pos hlt]; simp
      · rw [if_neg hlt]; simp
    | none =>
      simp only
      cases s with
      | nil =>
        have : t = [] := List.suffix_nil.mp hts
        subst this
        have := matchEnd_isSome_of_matchesPre hm
        rw [he] at this
        simp at this
      | cons x s2 =>
        rcases List.suffix_cons_iff.mp hts with rfl | hts2
        · have := matchEnd_isSome_of_matchesPre hm
          rw [he] at this
          simp at this
        · refine ih (i + 1) s2 ?_ ⟨t, hts2, hm⟩
          simp only [List.length_cons] at hf
          omega

/-- If the pattern matches a prefix of some suffix of the text, `finditer`
yields at least one match. -/
theorem findIter_ne_nil {p : List Tok} {text : List Char}
    (h : ∃ t, t <:+ text ∧ MatchesPre p t) : findIter p text ≠ [] :=
  goFind_ne_nil (text.length + 1) 0 text (le_refl _) h

/-- A pattern that contains a literal finds no match in the empty text. -/
theorem findIter_nil {p : List Tok} (hl : hasLit p = true) : findIter p [] = [] := by
  rw [findIter, goFind_succ]
  cases he : matchEnd p [] with
  | some r => exact absurd (matchEnd_length_lt p [] r hl he) (by simp)
  | none => simp

/-- A successful association-list lookup locates an entry of the list. -/
theorem lookup_mem {β : Type} : ∀ {l : List (String × β)} {a : String} {b : β},
    l.lookup a = some b → (a, b) ∈ l := by
  intro l
  induction l with
  | nil => intro a b h; simp [List.lookup] at h
  | cons kv rest ih =>
    intro a b h
    obtain ⟨k, v⟩ := kv
    rw [List.lookup] at h
    by_cases hk : a = k
    · subst hk
      simp only [beq_self_eq_true] at h
      exact List.mem_cons.mpr (Or.inl (by injection h with h2; rw [h2]))
    · have : (a == k) = false := beq_false_of_ne hk
      rw [this] at h
      exact List.mem_cons.mpr (Or.inr (ih h))

/-- Every pattern in the static table contains at least one literal token. -/
theorem patternTable_hasLit :
    (patternTable.all fun e => e.2.all fun r => hasLit (parseTokens r.pattern.data)) = true := by
  decide

/-- Every rule reachable through `rulesFor` has a pattern with a literal. -/
theorem rulesFor_hasLit {ct : String} {r : Rule} (h : r ∈ rulesFor ct) :
    hasLit (parseTokens r.pattern.data) = true := by
  rw [rulesFor] at h
  cases hl : patternTable.lookup ct with
  | none => rw [hl] at h; simp at h
  | some rs =>
    rw [hl] at h
    simp only [Option.getD_some] at h
    have hmem : (ct, rs) ∈ patternTable := lookup_mem hl
    have h1 := (List.all_eq_true.mp patternTable_hasLit) (ct, rs) hmem
    exact List.all_eq_true.mp h1 r h

/-- Decompose membership in the accumulated clause list into the requested
clause type, the rule, and the underlying regex match that produced it. -/
theorem mem_allDetected {text : List Char} {cts : List String} {c : Clause}
    (h : c ∈ allDetected text cts) :
    ∃ ct ∈ cts, ∃ r ∈ rulesFor ct, ∃ se ∈ findIter (parseTokens r.pattern.data) text,
      c = mkClause text ct r.confidence r.risk se := by
  simp only [allDetected, List.mem_flatMap, List.mem_map] at h
  obtain ⟨ct, hct, r, hr, se, hse, hc⟩ := h
  exact ⟨ct, hct, r, hr, se, hse, hc.symm⟩

/-- Scanning the empty text yields no clauses for any requested types. -/
theorem allDetected_nil (cts : List String) : allDetected [] cts = [] := by
  rw [List.eq_nil_iff_forall_not_mem]
  intro c hc
  obtain ⟨ct, _, r, hr, se, hse, _⟩ := mem_allDetected hc
  rw [findIter_nil (rulesFor_hasLit hr)] at hse
  exact absurd hse (List.not_mem_nil se)

/-! ### Concrete evaluation facts used by the scenario claim and witnesses -/

/-- The scenario sentence splits as the word "The " followed by the suffix at
which the first governance pattern starts matching. -/
theorem governanceSentence_decomp : governanceSentence = "The ".data ++ gsTail := by
  decide

/-- The rules the table holds for the `governance` category. -/
theorem rulesFor_governance : rulesFor "governance" =
    [⟨"shareholder.*vote.*accordance.*with.*instructions.*provided.*by.*president", 0.95, "high"⟩,
     ⟨"vote.*shares.*accordance.*president.*instructions", 0.9, "high"⟩,
     ⟨"governance.*compromise.*president.*instructions", 0.85, "high"⟩,
     ⟨"holder.*vote.*shares.*accordance.*instructions.*president", 0.8, "high"⟩] := rfl

/-- The first governance pattern matches a prefix of `gsTail`. -/
theorem gsTail_matches :
    MatchesPre
      (parseTokens "shareholder.*vote.*accordance.*with.*instructions.*provided.*by.*president".data)
      gsTail :=
  matchesPre_of_matchEnd _ _ (by decide)

/-- Evaluating the detector on the scenario sentence alone yields exactly the
two governance clauses. -/
theorem perform_gs_eval :
    (perform_enhanced_pattern_analysis governanceSentence ["governance"]).detected_clauses
      = [witClause, witClause2] := rfl

/-- The head of a nonempty list survives a truncation to a positive length. -/
theorem mem_take_head {α : Type} (x : α) (l : List α) (n : Nat) (hn : 0 < n) :
    x ∈ (x :: l).take n := by
  cases n with
  | zero => omega
  | succ m => simp [List.take_succ_cons]

/-! ### Claim theorems -/

/-- C1: the returned clause list is capped at 15 entries, while `total_found`
is the pre-truncation count of all accumulated matches, so it is always at
least the length of the returned list. -/
theorem detect_cap_and_total_found (text : List Char) (cts : List String) :
    (perform_enhanced_pattern_analysis text cts).detected_clauses.length ≤ 15 ∧
    (perform_enhanced_pattern_analysis text cts).total_found = (allDetected text cts).length ∧
    (perform_enhanced_pattern_analysis text cts).detected_clauses.length ≤
      (perform_enhanced_pattern_analysis text cts).total_found := by
  refine ⟨?_, rfl, ?_⟩ <;>
  · simp only [perform_enhanced_pattern_analysis, List.length_take]
    omega

/-- C2: every returned clause arises from a regex match span `se` of one of the
table's rules, its `position` is the match start, and its `context` is the
input slice from 50 characters before the start to 50 after the end, clipped
to the text bounds and stripped (natural subtraction `se.1 - 50` is the
clipping `max(0, start - 50)`). -/
theorem detect_context_window (text : List Char) (cts : List String) (c : Clause)
    (h : c ∈ (perform_enhanced_pattern_analysis text cts).detected_clauses) :
    ∃ ct r se, r ∈ rulesFor ct ∧ se ∈ findIter (parseTokens r.pattern.data) text ∧
      c.position = se.1 ∧
      c.context = pstrip (pySlice text (se.1 - 50) (min text.length (se.2 + 50))) := by
  have h2 : c ∈ allDetected text cts := List.take_subset 15 _ h
  obtain ⟨ct, _, r, hr, se, hse, rfl⟩ := mem_allDetected h2
  exact ⟨ct, r, se, hr, hse, rfl, rfl⟩

/-- Witness for C2 at a concrete input. -/
theorem detect_context_window_witness :
    witClause ∈
      (perform_enhanced_pattern_analysis governanceSentence ["governance"]).detected_clauses ∧
    (∃ ct r se, r ∈ rulesFor ct ∧
      se ∈ findIter (parseTokens r.pattern.data) governanceSentence ∧
      witClause.position = se.1 ∧
      witClause.context = pstrip (pySlice governanceSentence (se.1 - 50)
        (min governanceSentence.length (se.2 + 50)))) := by
  have hm : witClause ∈
      (perform_enhanced_pattern_analysis governanceSentence ["governance"]).detected_clauses := by
    rw [perform_gs_eval]
    exact List.mem_cons_self _ _
  exact ⟨hm, detect_context_window governanceSentence ["governance"] witClause hm⟩

/-- C3: the returned clauses are exactly the first 15 of the accumulation in
category order, then rule order, then match order; within one rule the spans
(and hence the emitted positions) are strictly increasing, so no re-sorting is
applied anywhere. -/
theorem detect_ordering (text : List Char) (cts : List String) :
    (perform_enhanced_pattern_analysis text cts).detected_clauses =
      (cts.flatMap fun ct =>
        (rulesFor ct).flatMap fun r =>
          (findIter (parseTokens r.pattern.data) text).map
            (mkClause text ct r.confidence r.risk)).take 15 ∧
    (∀ p : List Tok, List.Pairwise (fun a b => a.1 < b.1) (findIter p text)) ∧
    ∀ (ct : String) (cf : ℚ) (rk : String) (p : List Tok),
      List.Pairwise (fun a b => a.position < b.position)
        ((findIter p text).map (mkClause text ct cf rk)) := by
  refine ⟨rfl, fun p => goFind_pairwise _ _ _, fun ct cf rk p => ?_⟩
  rw [List.pairwise_map]
  simp only [mkClause]
  exact goFind_pairwise _ _ _

/-- C4: every returned clause's position is a valid zero-based offset strictly
inside the input text. -/
theorem detect_position_bound (text : List Char) (cts : List String) (c : Clause)
    (h : c ∈ (perform_enhanced_pattern_analysis text cts).detected_clauses) :
    c.position < text.length := by
  have h2 : c ∈ allDetected text cts := List.take_subset 15 _ h
  obtain ⟨ct, _, r, hr, se, hse, rfl⟩ := mem_allDetected h2
  obtain ⟨a, b⟩ := se
  have := goFind_start_lt (rulesFor_hasLit hr) (text.length + 1) 0 text a b hse
  simpa [mkClause] using this

/-- Witness for C4 at a concrete input. -/
theorem detect_position_bound_witness :
    witClause ∈
      (perform_enhanced_pattern_analysis governanceSentence ["governance"]).detected_clauses ∧
    witClause.position < governanceSentence.length := by
  have hm : witClause ∈
      (perform_enhanced_pattern_analysis governanceSentence ["governance"]).detected_clauses := by
    rw [perform_gs_eval]
    exact List.mem_cons_self _ _
  exact ⟨hm, detect_position_bound governanceSentence ["governance"] witClause hm⟩

/-- C5: any text containing the scenario sentence, analysed with the single
requested category `governance`, yields at least one clause of type
`governance` with confidence 0.95 and risk level `high`. -/
theorem detect_governance_scenario (text : List Char)
    (h : governanceSentence <:+: text) :
    ∃ c ∈ (perform_enhanced_pattern_analysis text ["governance"]).detected_clauses,
      c.type = "governance" ∧ c.confidence = 0.95 ∧ c.risk_level = "high" := by
  obtain ⟨pre, post, rfl⟩ := h
  have hm1 : MatchesPre
      (parseTokens "shareholder.*vote.*accordance.*with.*instructions.*provided.*by.*president".data)
      (gsTail ++ post) := matchesPre_append gsTail_matches post
  have hsuf : (gsTail ++ post) <:+ pre ++ governanceSentence ++ post := by
    refine ⟨pre ++ "The ".data, ?_⟩
    rw [governanceSentence_decomp]
    simp [List.append_assoc]
  have hne : findIter
      (parseTokens "shareholder.*vote.*accordance.*with.*instructions.*provided.*by.*president".data)
      (pre ++ governanceSentence ++ post) ≠ [] :=
    findIter_ne_nil ⟨gsTail ++ post, hsuf, hm1⟩
  obtain ⟨m0, rest, hfi⟩ := List.exists_cons_of_ne_nil hne
  refine ⟨mkClause (pre ++ governanceSentence ++ post) "governance" 0.95 "high" m0, ?_, rfl, rfl, rfl⟩
  have hdc : (perform_enhanced_pattern_analysis (pre ++ governanceSentence ++ post)
      ["governance"]).detected_clauses
      = (allDetected (pre ++ governanceSentence ++ post) ["governance"]).take 15 := rfl
  rw [hdc]
  have hall : allDetected (pre ++ governanceSentence ++ post) ["governance"]
      = mkClause (pre ++ governanceSentence ++ post) "governance" 0.95 "high" m0 ::
        ((List.map (mkClause (pre ++ governanceSentence ++ post) "governance" 0.95 "high") rest) ++
          allDetected (pre ++ governanceSentence ++ post) [] ++
          ((rulesFor "governance").drop 1).flatMap (fun r =>
            (findIter (parseTokens r.pattern.data) (pre ++ governanceSentence ++ post)).map
              (mkClause (pre ++ governanceSentence ++ post) "governance" r.confidence r.risk))) := by
    simp only [allDetected, List.flatMap_cons, List.flatMap_nil, rulesFor_governance, hfi,
      List.map_cons, List.append_nil, List.drop_one, List.tail_cons, List.cons_append]
  rw [hall]
  exact mem_take_head _ _ 15 (by omega)

/-- Witness for C5: the scenario sentence itself contains itself. -/
theorem detect_governance_scenario_witness :
    governanceSentence <:+: governanceSentence ∧
    ∃ c ∈ (perform_enhanced_pattern_analysis governanceSentence ["governance"]).detected_clauses,
      c.type = "governance" ∧ c.confidence = 0.95 ∧ c.risk_level = "high" :=
  ⟨⟨[], [], by simp⟩, detect_governance_scenario governanceSentence ⟨[], [], by simp⟩⟩

/-- C6: a requested category that is not a key of the static table contributes
zero matches (dropping it from the requested sequence leaves the result
unchanged), and an empty requested sequence yields an empty clause list with
`success` still true; the embedding is total, so no error is raised. -/
theorem detect_unknown_category (text : List Char) (cts1 cts2 : List String) (ct : String)
    (h : patternTable.lookup ct = none) :
    perform_enhanced_pattern_analysis text (cts1 ++ ct :: cts2)
      = perform_enhanced_pattern_analysis text (cts1 ++ cts2) ∧
    (perform_enhanced_pattern_analysis text []).detected_clauses = [] ∧
    (perform_enhanced_pattern_analysis text []).success = true := by
  have hall : allDetected text (cts1 ++ ct :: cts2) = allDetected text (cts1 ++ cts2) := by
    simp only [allDetected, List.flatMap_append, List.flatMap_cons, rulesFor, h,
      Option.getD_none, List.flatMap_nil, List.nil_append]
  exact ⟨by simp only [perform_enhanced_pattern_analysis, hall], rfl, rfl⟩

/-- Witness for C6 at a concrete unknown category. -/
theorem detect_unknown_category_witness :
    patternTable.lookup "confidentiality" = none ∧
    (perform_enhanced_pattern_analysis governanceSentence
        (["governance"] ++ "confidentiality" :: [])
      = perform_enhanced_pattern_analysis governanceSentence (["governance"] ++ []) ∧
    (perform_enhanced_pattern_analysis governanceSentence []).detected_clauses = [] ∧
    (perform_enhanced_pattern_analysis governanceSentence []).success = true) :=
  ⟨rfl, detect_unknown_category governanceSentence ["governance"] [] "confidentiality" rfl⟩

/-- C7: on the empty text, any non-empty requested sequence yields an empty
clause list, `total_found = 0` and `success = true`. -/
theorem detect_empty_text (cts : List String) (h : cts ≠ []) :
    (perform_enhanced_pattern_analysis [] cts).detected_clauses = [] ∧
    (perform_enhanced_pattern_analysis [] cts).total_found = 0 ∧
    (perform_enhanced_pattern_analysis [] cts).success = true := by
  refine ⟨?_, ?_, rfl⟩
  · rw [show (perform_enhanced_pattern_analysis [] cts).detected_clauses
        = (allDetected [] cts).take 15 from rfl, allDetected_nil]
    rfl
  · rw [show (perform_enhanced_pattern_analysis [] cts).total_found
        = (allDetected [] cts).length from rfl, allDetected_nil]
    rfl

/-- Witness for C7 at a concrete non-empty category sequence. -/
theorem detect_empty_text_witness :
    (["governance"] : List String) ≠ [] ∧
    ((perform_enhanced_pattern_analysis [] ["governance"]).detected_clauses = [] ∧
    (perform_enhanced_pattern_analysis [] ["governance"]).total_found = 0 ∧
    (perform_enhanced_pattern_analysis [] ["governance"]).success = true) :=
  ⟨by simp, detect_empty_text ["governance"] (by simp)⟩

/-- C8: the detector is a pure function of the text and the requested category
sequence — two calls on identical inputs return identical results. -/
theorem detect_deterministic (t1 t2 : List Char) (c1 c2 : List String)
    (h1 : t1 = t2) (h2 : c1 = c2) :
    perform_enhanced_pattern_analysis t1 c1 = perform_enhanced_pattern_analysis t2 c2 := by
  rw [h1, h2]

/-- Witness for C8 at a concrete input. -/
theorem detect_deterministic_witness :
    governanceSentence = governanceSentence ∧
    perform_enhanced_pattern_analysis governanceSentence ["governance"]
      = perform_enhanced_pattern_analysis governanceSentence ["governance"] :=
  ⟨rfl, detect_deterministic governanceSentence governanceSentence
    ["governance"] ["governance"] rfl rfl⟩

/-- C9: the requested categories are processed as a sequence with no
deduplication: `k` copies of a category contribute `k` concatenated copies of
that category's matches, and the returned list is the 15-entry truncation of
that accumulation. -/
theorem detect_duplicate_categories (text : List Char) (ct : String) (k : Nat) :
    allDetected text (List.replicate k ct)
      = (List.replicate k (allDetected text [ct])).flatten ∧
    (allDetected text (List.replicate k ct)).length = k * (allDetected text [ct]).length ∧
    (perform_enhanced_pattern_analysis text (List.replicate k ct)).detected_clauses =
      ((List.replicate k (allDetected text [ct])).flatten).take 15 := by
  have happ : ∀ l1 l2 : List String,
      allDetected text (l1 ++ l2) = allDetected text l1 ++ allDetected text l2 := by
    intro l1 l2
    simp [allDetected]
  have h1 : ∀ m : Nat, allDetected text (List.replicate m ct)
      = (List.replicate m (allDetected text [ct])).flatten := by
    intro m
    induction m with
    | zero => rfl
    | succ n ih =>
      rw [List.replicate_succ, List.replicate_succ, List.flatten_cons,
        show (ct :: List.replicate n ct) = [ct] ++ List.replicate n ct from rfl, happ, ih]
  refine ⟨h1 k, ?_, ?_⟩
  · rw [h1 k]
    induction k with
    | zero => simp
    | succ n ih =>
      rw [List.replicate_succ, List.flatten_cons, List.length_append, ih]
      ring
  · rw [show (perform_enhanced_pattern_analysis text (List.replicate k ct)).detected_clauses
        = (allDetected text (List.replicate k ct)).take 15 from rfl, h1 k]

/-- C10: every returned clause's `text` field is the verbatim substring of the
original input at the reported offset. -/
theorem detect_text_field_verbatim (text : List Char) (cts : List String) (c : Clause)
    (h : c ∈ (perform_enhanced_pattern_analysis text cts).detected_clauses) :
    c.text = pySlice text c.position (c.position + c.text.length) := by
  have h2 : c ∈ allDetected text cts := List.take_subset 15 _ h
  obtain ⟨ct, _, r, hr, se, hse, rfl⟩ := mem_allDetected h2
  obtain ⟨a, b⟩ := se
  obtain ⟨hb1, hb2⟩ := goFind_bounds (text.length + 1) 0 text a b hse
  have hlen : (pySlice text a b).length = b - a := by
    simp only [pySlice, List.length_take, List.length_drop]
    omega
  show pySlice text a b = pySlice text a (a + (pySlice text a b).length)
  rw [hlen, show a + (b - a) = b by omega]

/-- Witness for C10 at a concrete input. -/
theorem detect_text_field_verbatim_witness :
    witClause ∈
      (perform_enhanced_pattern_analysis governanceSentence ["governance"]).detected_clauses ∧
    witClause.text = pySlice governanceSentence witClause.position
      (witClause.position + witClause.text.length) := by
  have hm : witClause ∈
      (perform_enhanced_pattern_analysis governanceSentence ["governance"]).detected_clauses := by
    rw [perform_gs_eval]
    exact List.mem_cons_self _ _
  exact ⟨hm, detect_text_field_verbatim governanceSentence ["governance"] witClause hm⟩
